import Mathlib

/-!
Verification of the recipe formatting core of the Drake-Family-Cookbook
repository: the ingredient-quantity parser and scaler
(`parseQuantity`, `fractionToNumber`, `formatScaledQuantity` in
`src/pages/RecipePage.tsx`) and the duration / difficulty formatters
(`formatTime`, `getDifficultyLabel` in `src/utils/recipeFormatting.ts`).

Modelling conventions for the JavaScript platform primitives the source
uses:

* JavaScript numbers are modelled as exact rationals (`ℚ`).  Every value
  the source can actually produce from a quantity string is a finite
  IEEE double, i.e. a dyadic rational; the exact-rational model performs
  the same arithmetic without the float rounding, and the display
  rounding that the claims speak about (2 decimal places) is modelled
  exactly.  Overflow to `Infinity` and float rounding of literals are
  outside the model.
* `Number(string)` is modelled by `jsToNumber`, returning `none` for
  every non-finite result (`NaN` as well as `±Infinity`): the source
  only ever consumes `Number` results through `Number.isFinite` guards,
  so the two non-finite outcomes are indistinguishable to it.
* Number-to-string conversion (template interpolation, `String(n)`) is
  modelled by `jsNumToString`: sign, decimal digits, and a fractional
  part obtained by exact long division (fuelled, exact for every value
  with a terminating decimal expansion, which covers every IEEE double).
  The exponential notation JavaScript switches to below `1e-6` and at
  `1e21` is outside the model.
* Strings are Lean `String`s; the character-level work happens on their
  `data` lists.
-/

/-- The decimal digit characters, as a total function (`digitChar k` is
the digit for `k < 10`; larger arguments never occur in the development
and map to a placeholder). -/
def digitChar (k : Nat) : Char :=
  match k with
  | 0 => '0' | 1 => '1' | 2 => '2' | 3 => '3' | 4 => '4'
  | 5 => '5' | 6 => '6' | 7 => '7' | 8 => '8' | 9 => '9'
  | _ => '*'

/-- Numeric value of a digit character. -/
def digitVal (c : Char) : Nat := c.toNat - 48

/-- Value of a list of decimal digit characters, most significant first
(the value JavaScript assigns to a decimal digit string). -/
def digitsVal (cs : List Char) : Nat :=
  cs.foldl (fun a c => 10 * a + digitVal c) 0

/-- Decimal digits of `n`, most significant first, no leading zeros
(fuelled helper; `fuel > n` suffices). -/
def natDigitsAux : Nat → Nat → List Char
  | 0, _ => []
  | fuel + 1, n =>
    if n < 10 then [digitChar n]
    else natDigitsAux fuel (n / 10) ++ [digitChar (n % 10)]

/-- Decimal digits of `n`, most significant first: the JavaScript
rendering of a non-negative integer. -/
def natDigits (n : Nat) : List Char := natDigitsAux (n + 1) n

/-- Decimal string of a natural number. -/
def natRepr (n : Nat) : String := ⟨natDigits n⟩

/-- The characters JavaScript `String.prototype.trim` (and the
whitespace skipping of `Number`) removes: the common ASCII whitespace
characters and the no-break space. -/
def isJsSpace (c : Char) : Bool :=
  decide (c = ' ' ∨ c = '\t' ∨ c = '\n' ∨ c = '\r' ∨
    c = Char.ofNat 11 ∨ c = Char.ofNat 12 ∨ c = Char.ofNat 160)

/-- JavaScript `trim` on a character list: drop whitespace from both
ends. -/
def jsTrimL (cs : List Char) : List Char :=
  ((cs.dropWhile isJsSpace).reverse.dropWhile isJsSpace).reverse

/-- JavaScript `str.split(sep)` for a single-character separator: the
(possibly empty) chunks between occurrences of `sep`; splitting the
empty string yields `[[]]`, like `"".split(" ")` yields `[""]`. -/
def splitChar (sep : Char) : List Char → List (List Char)
  | [] => [[]]
  | c :: cs =>
    match splitChar sep cs with
    | [] => [[]]
    | t :: ts => if c = sep then [] :: t :: ts else (c :: t) :: ts

/-- JavaScript `str.includes(x)` for a single character. -/
def hasChar (x : Char) : List Char → Bool
  | [] => false
  | c :: cs => (c == x) || hasChar x cs

/-- Digits (if any) of the decimal mantissa after the decimal separator
together with the exponent suffix: helper grammar pieces of the
JavaScript `StringNumericLiteral` parser below. `parseExpDigits`
requires a non-empty all-digit list. -/
def parseExpDigits (cs : List Char) : Option Nat :=
  if cs ≠ [] ∧ cs.all Char.isDigit then some (digitsVal cs) else none

/-- Exponent of a decimal literal: optional sign followed by digits. -/
def parseExpNum (cs : List Char) : Option Int :=
  match cs with
  | '+' :: t => (parseExpDigits t).map Int.ofNat
  | '-' :: t => (parseExpDigits t).map (fun n => -(n : Int))
  | t => (parseExpDigits t).map Int.ofNat

/-- Parse the optional exponent tail of a decimal literal and apply it
to the mantissa; the whole rest of the input must be consumed. -/
def parseExpTail (mant : ℚ) (cs : List Char) : Option ℚ :=
  match cs with
  | [] => some mant
  | c :: t =>
    if c = 'e' ∨ c = 'E' then
      match parseExpNum t with
      | some k => some (mant * (10 : ℚ) ^ k)
      | none => none
    else none

/-- Rest of a decimal literal after its leading digits `ip`: nothing,
a fractional part (with at least one digit somewhere in the mantissa),
or directly an exponent. -/
def parseDecTail (ip : List Char) : List Char → Option ℚ
  | [] => if ip = [] then none else some ((digitsVal ip : ℚ))
  | c :: t =>
    if c = '.' then
      let fp := t.takeWhile Char.isDigit
      let r2 := t.dropWhile Char.isDigit
      if ip = [] ∧ fp = [] then none
      else
        parseExpTail ((digitsVal ip : ℚ) + (digitsVal fp : ℚ) / (10 : ℚ) ^ fp.length) r2
    else if ip = [] then none
    else parseExpTail ((digitsVal ip : ℚ)) (c :: t)

/-- The decimal part of the JavaScript `StringNumericLiteral` grammar:
`digits [. digits] [(e|E) [sign] digits]`, with at least one digit in
the mantissa (so `"1."` and `".5"` parse, `"."` and `""` do not). -/
def parseDec (cs : List Char) : Option ℚ :=
  parseDecTail (cs.takeWhile Char.isDigit) (cs.dropWhile Char.isDigit)

/-- Value of a digit character in radix `b` (hex also accepts letters),
`none` when the character is not a digit of that radix. -/
def radixDigitVal (b : Nat) (c : Char) : Option Nat :=
  let v :=
    if c.isDigit then some (digitVal c)
    else if 'a' ≤ c ∧ c ≤ 'f' then some (c.toNat - 87)
    else if 'A' ≤ c ∧ c ≤ 'F' then some (c.toNat - 55)
    else none
  match v with
  | some k => if k < b then some k else none
  | none => none

/-- Non-empty digit string in radix `b` (body of the JavaScript
`0x`/`0o`/`0b` literals). -/
def parseRadixDigits (b : Nat) (cs : List Char) : Option Nat :=
  if cs = [] then none
  else cs.foldl (fun acc c => acc.bind fun a => (radixDigitVal b c).map fun k => b * a + k) (some 0)

/-- Unsigned decimal literal: `Infinity` is non-finite, hence `none`
under the finiteness-guarded model; everything else goes through the
decimal grammar. -/
def jsUnsignedDec (cs : List Char) : Option ℚ :=
  if cs = "Infinity".data then none else parseDec cs

/-- Signed decimal literal. -/
def jsSignedDec (cs : List Char) : Option ℚ :=
  match cs with
  | [] => jsUnsignedDec []
  | c :: t =>
    if c = '+' then jsUnsignedDec t
    else if c = '-' then (jsUnsignedDec t).map Neg.neg
    else jsUnsignedDec (c :: t)

/-- The trimmed-and-non-empty case of JavaScript `Number(string)`:
a radix-prefixed integer literal (which takes no sign) or a signed
decimal literal. -/
def jsNumParse (cs : List Char) : Option ℚ :=
  match cs with
  | c0 :: c1 :: t =>
    if c0 = '0' ∧ (c1 = 'x' ∨ c1 = 'X') then (parseRadixDigits 16 t).map (fun n => (n : ℚ))
    else if c0 = '0' ∧ (c1 = 'o' ∨ c1 = 'O') then (parseRadixDigits 8 t).map (fun n => (n : ℚ))
    else if c0 = '0' ∧ (c1 = 'b' ∨ c1 = 'B') then (parseRadixDigits 2 t).map (fun n => (n : ℚ))
    else jsSignedDec cs
  | _ => jsSignedDec cs

/-- JavaScript `Number(string)` restricted to finite results: trims
whitespace, maps the empty (trimmed) string to `0`, and otherwise
parses a numeric literal; `none` stands for `NaN` or `±Infinity`
(the source only inspects the result through `Number.isFinite`). -/
def jsToNumberL (cs : List Char) : Option ℚ :=
  let t := jsTrimL cs
  if t = [] then some 0 else jsNumParse t

/-- `jsToNumberL` on a `String`. -/
def jsToNumber (s : String) : Option ℚ := jsToNumberL s.data

/-- Fractional decimal digits of `r / d` by exact long division
(fuelled; stops at remainder `0`, so no trailing zeros). -/
def fracDigits (d : Nat) : Nat → Nat → List Char
  | _, 0 => []
  | r, fuel + 1 =>
    if r = 0 then [] else digitChar (10 * r / d) :: fracDigits d (10 * r % d) fuel

/-- Decimal rendering of a non-negative rational: integer part, and the
exact fractional expansion when there is one (fuel 40 covers every
value the application can reach). -/
def jsPosRepr (q : ℚ) : String :=
  let n := q.num.toNat
  let d := q.den
  if n % d = 0 then natRepr (n / d)
  else natRepr (n / d) ++ "." ++ ⟨fracDigits d (n % d) 40⟩

/-- JavaScript number-to-string (template interpolation, `String(n)`)
on the exact-rational model: sign followed by the decimal rendering. -/
def jsNumToString (q : ℚ) : String :=
  if q < 0 then "-" ++ jsPosRepr (-q) else jsPosRepr q

/-- `x.toFixed(2)` for a non-negative rational: round `100 * x` to the
nearest integer (ties up, per the ECMAScript `toFixed` tie rule after
the sign has been split off) and print with exactly two fractional
digits. -/
def jsToFixed2Core (x : ℚ) : List Char :=
  let n := (Int.floor (x * 100 + 1 / 2)).toNat
  natDigits (n / 100) ++ '.' :: [digitChar (n % 100 / 10), digitChar (n % 100 % 10)]

/-- `x.toFixed(2)`: sign is split off first, as in the ECMAScript
specification of `toFixed`. -/
def jsToFixed2 (q : ℚ) : String :=
  if q < 0 then "-" ++ ⟨jsToFixed2Core (-q)⟩ else ⟨jsToFixed2Core q⟩

/-- The regex replacement `.replace(/\.?0+$/, '')` from the source:
a match requires at least one trailing zero; the leftmost match is the
maximal run of trailing zeros, preceded by a decimal point when one is
directly adjacent. -/
def stripZerosL (cs : List Char) : List Char :=
  let r := cs.reverse
  if r.head? = some '0' then
    let r1 := r.dropWhile (fun c => c == '0')
    let r2 := if r1.head? = some '.' then r1.tail else r1
    r2.reverse
  else cs

/-- `stripZerosL` on a `String`. -/
def stripTrailingZeros (s : String) : String := ⟨stripZerosL s.data⟩

/-- `fractionToNumber` from `src/pages/RecipePage.tsx` (lines 499-510):
empty tokens are rejected; a token containing `/` is split on `/`, its
first two chunks are converted with `Number` and must be finite with
non-zero denominator; any other token is converted with `Number`
directly. -/
def fractionToNumberL (v : List Char) : Option ℚ :=
  if v = [] then none
  else if hasChar '/' v then
    let parts := splitChar '/' v
    match jsToNumberL (parts.getD 0 []), jsToNumberL (parts.getD 1 []) with
    | some n, some d => if d ≠ 0 then some (n / d) else none
    | _, _ => none
  else jsToNumberL v

/-- `fractionToNumber` on a `String`. -/
def fractionToNumber (value : String) : Option ℚ := fractionToNumberL value.data

/-- The summation loop of `parseQuantity`: add each token's value to
the accumulator, failing the whole parse as soon as one token fails. -/
def loopTokens : List (List Char) → ℚ → Option ℚ
  | [], acc => some acc
  | p :: ps, acc =>
    match fractionToNumberL p with
    | none => none
    | some v => loopTokens ps (acc + v)

/-- `parseQuantity` from `src/pages/RecipePage.tsx` (lines 483-497):
falsy (empty) input fails, the input is trimmed, the trimmed text is
split on single spaces, and the token values are summed. -/
def parseQuantity (raw : String) : Option ℚ :=
  if raw = "" then none
  else
    let text := jsTrimL raw.data
    if text = [] then none
    else loopTokens (splitChar ' ' text) 0

/-- `formatScaledQuantity` from `src/pages/RecipePage.tsx` (lines
475-481).  `raw` is an optional parameter in the source; `none` models
a missing argument.  Falsy `raw` or `scale === 1` returns `raw ?? ''`;
a failed parse returns the annotated original; otherwise the scaled
value is printed directly when it is an integer and via
`toFixed(2).replace(/\.?0+$/, '')` when it is not. -/
def formatScaledQuantity (raw : Option String) (scale : ℚ) : String :=
  match raw with
  | none => ""
  | some r =>
    if r = "" ∨ scale = 1 then r
    else
      match parseQuantity r with
      | none => r ++ " (x" ++ jsNumToString scale ++ ")"
      | some parsed =>
        let scaled := parsed * scale
        if scaled.den = 1 then jsNumToString scaled
        else stripTrailingZeros (jsToFixed2 scaled)

/-- `formatTime` from `src/utils/recipeFormatting.ts` (lines 1-8):
missing minutes count as 0; zero total is `"Time varies"`; totals under
an hour are shown in minutes; otherwise hours with a non-zero minute
remainder appended. -/
def formatTime (prep cook : Option Nat) : String :=
  let total := prep.getD 0 + cook.getD 0
  if total = 0 then "Time varies"
  else if total < 60 then natRepr total ++ " min"
  else if total % 60 ≠ 0 then natRepr (total / 60) ++ "h " ++ natRepr (total % 60) ++ "m"
  else natRepr (total / 60) ++ "h"

/-- The `difficultyLabel` record from `src/utils/recipeFormatting.ts`
(lines 10-14): the own properties of the object literal, as a finite
map. -/
def difficultyLabelMap (v : String) : Option String :=
  if v = "easy" then some "Easy"
  else if v = "weeknight" then some "Weeknight-friendly"
  else if v = "showstopper" then some "Showstopper"
  else none

/-- The property names a plain object literal inherits from
`Object.prototype`: reading any of these on `difficultyLabel` finds the
inherited member (a function, or the prototype object itself for
`__proto__`), which is never nullish. -/
def objectProtoKeys : List String :=
  ["constructor", "hasOwnProperty", "isPrototypeOf", "propertyIsEnumerable",
   "toLocaleString", "toString", "valueOf", "__defineGetter__",
   "__defineSetter__", "__lookupGetter__", "__lookupSetter__", "__proto__"]

/-- A JavaScript value as far as `getDifficultyLabel` can produce one:
a nullish value (`null` or `undefined`), a string, or a member inherited
from `Object.prototype` (modelled opaquely by the property name that
reached it; such a member is a function or an object, never nullish and
never a string). -/
inductive JsValue where
  | nullish : JsValue
  | stringValue : String → JsValue
  | protoMember : String → JsValue
deriving DecidableEq

/-- The bracket lookup `difficultyLabel[value]`: an own property when
the key is one of the three mapped codes, the inherited
`Object.prototype` member when the key is one of the prototype property
names, and `undefined` otherwise. -/
def difficultyLabelGet (key : String) : JsValue :=
  match difficultyLabelMap key with
  | some s => JsValue.stringValue s
  | none =>
    if key ∈ objectProtoKeys then JsValue.protoMember key else JsValue.nullish

/-- `getDifficultyLabel` from `src/utils/recipeFormatting.ts` (lines
16-17): falsy input gives `null`; otherwise
`difficultyLabel[value] ?? value`, where `??` replaces only a nullish
lookup result by the code itself — an inherited prototype member is not
nullish and is returned as is. -/
def getDifficultyLabel (value : Option String) : JsValue :=
  match value with
  | none => JsValue.nullish
  | some v =>
    if v = "" then JsValue.nullish
    else
      match difficultyLabelGet v with
      | JsValue.nullish => JsValue.stringValue v
      | r => r

/-- Whether a character list contains two consecutive space characters
(the situation claim C9 describes for the trimmed input). -/
def hasDoubleSpace : List Char → Bool
  | [] => false
  | [_] => false
  | c1 :: c2 :: rest => (c1 == ' ' && c2 == ' ') || hasDoubleSpace (c2 :: rest)

/-- Parse every token independently, failing when any token fails: the
token lists that `parseQuantity` sums. -/
def parseTokens : List (List Char) → Option (List ℚ)
  | [] => some []
  | p :: ps =>
    match fractionToNumberL p, parseTokens ps with
    | some v, some vs => some (v :: vs)
    | _, _ => none

/-- The tokens `parseQuantity` works on: the trimmed input split on
single spaces. -/
def tokensOf (raw : String) : List (List Char) :=
  splitChar ' ' (jsTrimL raw.data)

/-- Modelled from the claim wording of C2: trim, fail on empty, split
on single spaces, parse each token independently and sum the values. -/
def parseQuantityDesc (raw : String) : Option ℚ :=
  let text := jsTrimL raw.data
  if text = [] then none else (parseTokens (splitChar ' ' text)).map List.sum

/-- Modelled from the claim wording of C3: a token containing `/` fails
unless both its numerator and denominator substrings parse as finite
numbers and the denominator is nonzero; a token without `/` fails
unless it parses as a finite number. -/
def tokenFailsC3 (v : List Char) : Bool :=
  if hasChar '/' v then
    match jsToNumberL ((splitChar '/' v).getD 0 []),
        jsToNumberL ((splitChar '/' v).getD 1 []) with
    | some _, some d => decide (d = 0)
    | _, _ => true
  else (jsToNumberL v).isNone

/-! ## Character and digit lemmas -/

theorem digitChar_isDigit {k : Nat} (h : k < 10) : (digitChar k).isDigit = true := by
  interval_cases k <;> decide

theorem digitVal_digitChar {k : Nat} (h : k < 10) : digitVal (digitChar k) = k := by
  interval_cases k <;> decide

theorem digitChar_eq_zero_iff {k : Nat} (h : k < 10) : digitChar k = '0' ↔ k = 0 := by
  interval_cases k <;> simp [digitChar]

theorem isDigit_ne {c x : Char} (h : c.isDigit = true) (hx : x.isDigit = false) : c ≠ x := by
  intro e
  subst e
  rw [h] at hx
  exact Bool.noConfusion hx

theorem isJsSpace_eq_false {c : Char}
    (h : c.isDigit = true ∨ c = '.' ∨ c = '-' ∨ c = '/') : isJsSpace c = false := by
  rcases h with h | rfl | rfl | rfl
  · simp only [isJsSpace, decide_eq_false_iff_not]
    rintro (rfl | rfl | rfl | rfl | rfl | rfl | rfl) <;> exact absurd h (by decide)
  · decide
  · decide
  · decide

/-! ## List helper lemmas -/

theorem dropWhile_eq_self_of {p : Char → Bool} {l : List Char}
    (h : ∀ c ∈ l, p c = false) : l.dropWhile p = l := by
  cases l with
  | nil => rfl
  | cons a t => simp [List.dropWhile_cons, h a (List.mem_cons_self a t)]

theorem takeWhile_eq_self_of {p : Char → Bool} {l : List Char}
    (h : ∀ c ∈ l, p c = true) : l.takeWhile p = l := by
  induction l with
  | nil => rfl
  | cons a t ih =>
    simp [List.takeWhile_cons, h a (List.mem_cons_self a t),
      ih fun c hc => h c (List.mem_cons_of_mem a hc)]

theorem dropWhile_eq_nil_of {p : Char → Bool} {l : List Char}
    (h : ∀ c ∈ l, p c = true) : l.dropWhile p = [] := by
  induction l with
  | nil => rfl
  | cons a t ih =>
    simp [List.dropWhile_cons, h a (List.mem_cons_self a t),
      ih fun c hc => h c (List.mem_cons_of_mem a hc)]

theorem takeWhile_append_of {p : Char → Bool} {xs ys : List Char} {y : Char}
    (hx : ∀ c ∈ xs, p c = true) (hy : p y = false) :
    (xs ++ y :: ys).takeWhile p = xs := by
  induction xs with
  | nil => simp [List.takeWhile_cons, hy]
  | cons a t ih =>
    simp [List.takeWhile_cons, hx a (List.mem_cons_self a t),
      ih fun c hc => hx c (List.mem_cons_of_mem a hc)]

theorem dropWhile_append_of {p : Char → Bool} {xs ys : List Char} {y : Char}
    (hx : ∀ c ∈ xs, p c = true) (hy : p y = false) :
    (xs ++ y :: ys).dropWhile p = y :: ys := by
  induction xs with
  | nil => simp [List.dropWhile_cons, hy]
  | cons a t ih =>
    simp [List.dropWhile_cons, hx a (List.mem_cons_self a t),
      ih fun c hc => hx c (List.mem_cons_of_mem a hc)]

theorem jsTrimL_eq_self {l : List Char} (h : ∀ c ∈ l, isJsSpace c = false) :
    jsTrimL l = l := by
  unfold jsTrimL
  rw [dropWhile_eq_self_of h, dropWhile_eq_self_of (fun c hc => h c (List.mem_reverse.mp hc)),
    List.reverse_reverse]

theorem jsTrimL_nil : jsTrimL [] = [] := rfl

theorem splitChar_ne_nil (sep : Char) (l : List Char) : splitChar sep l ≠ [] := by
  cases l with
  | nil => simp [splitChar]
  | cons c t =>
    unfold splitChar
    match splitChar sep t with
    | [] => simp
    | u :: us =>
      by_cases h : c = sep <;> simp [h]

theorem splitChar_of_no_sep {sep : Char} {l : List Char}
    (h : ∀ c ∈ l, c ≠ sep) : splitChar sep l = [l] := by
  induction l with
  | nil => rfl
  | cons c t ih =>
    unfold splitChar
    rw [ih fun x hx => h x (List.mem_cons_of_mem c hx)]
    simp [h c (List.mem_cons_self c t)]

theorem hasChar_eq_false_of {x : Char} {l : List Char}
    (h : ∀ c ∈ l, c ≠ x) : hasChar x l = false := by
  induction l with
  | nil => rfl
  | cons c t ih =>
    simp only [hasChar, Bool.or_eq_false_iff, beq_eq_false_iff_ne]
    exact ⟨h c (List.mem_cons_self c t), ih fun a ha => h a (List.mem_cons_of_mem c ha)⟩

/-! ## Decimal digit rendering lemmas -/

theorem digitsVal_append (xs : List Char) (c : Char) :
    digitsVal (xs ++ [c]) = 10 * digitsVal xs + digitVal c := by
  simp [digitsVal, List.foldl_append]

theorem natDigitsAux_spec :
    ∀ fuel n, n < fuel →
      natDigitsAux fuel n ≠ [] ∧ (∀ c ∈ natDigitsAux fuel n, c.isDigit = true) ∧
        digitsVal (natDigitsAux fuel n) = n := by
  intro fuel
  induction fuel with
  | zero => intro n h; omega
  | succ fuel ih =>
    intro n h
    by_cases h10 : n < 10
    · refine ⟨by simp [natDigitsAux, h10], ?_, ?_⟩
      · intro c hc
        simp only [natDigitsAux, if_pos h10, List.mem_singleton] at hc
        subst hc
        exact digitChar_isDigit h10
      · simp [natDigitsAux, h10, digitsVal, digitVal_digitChar h10]
    · have hdiv : n / 10 < n := Nat.div_lt_self (by omega) (by omega)
      obtain ⟨hne, hdig, hval⟩ := ih (n / 10) (by omega)
      simp only [natDigitsAux, if_neg h10]
      refine ⟨by simp, ?_, ?_⟩
      · intro c hc
        rcases List.mem_append.mp hc with hc | hc
        · exact hdig c hc
        · rw [List.mem_singleton.mp hc]
          exact digitChar_isDigit (Nat.mod_lt n (by omega))
      · rw [digitsVal_append, hval, digitVal_digitChar (Nat.mod_lt n (by omega))]
        omega

theorem natDigits_ne_nil (n : Nat) : natDigits n ≠ [] :=
  (natDigitsAux_spec (n + 1) n (Nat.lt_succ_self n)).1

theorem natDigits_digits (n : Nat) : ∀ c ∈ natDigits n, c.isDigit = true :=
  (natDigitsAux_spec (n + 1) n (Nat.lt_succ_self n)).2.1

theorem digitsVal_natDigits (n : Nat) : digitsVal (natDigits n) = n :=
  (natDigitsAux_spec (n + 1) n (Nat.lt_succ_self n)).2.2

/-! ## Parsing numeric text back: bridge lemmas -/

theorem digit_dot_ne {c : Char} (h : c.isDigit = true ∨ c = '.') {x : Char}
    (hx : x.isDigit = false) (hx2 : x ≠ '.') : c ≠ x := by
  rcases h with h | rfl
  · exact isDigit_ne h hx
  · exact fun e => hx2 e.symm

theorem parseDec_digits {ds : List Char} (hne : ds ≠ [])
    (hd : ∀ c ∈ ds, c.isDigit = true) : parseDec ds = some ((digitsVal ds : ℚ)) := by
  unfold parseDec
  rw [takeWhile_eq_self_of hd, dropWhile_eq_nil_of hd]
  simp [parseDecTail, hne]

theorem parseDec_point {ds1 ds2 : List Char} (hne : ds1 ≠ [])
    (h1 : ∀ c ∈ ds1, c.isDigit = true) (h2 : ∀ c ∈ ds2, c.isDigit = true) :
    parseDec (ds1 ++ '.' :: ds2) =
      some ((digitsVal ds1 : ℚ) + (digitsVal ds2 : ℚ) / (10 : ℚ) ^ ds2.length) := by
  unfold parseDec
  rw [takeWhile_append_of h1 (by decide), dropWhile_append_of h1 (by decide)]
  simp only [parseDecTail, if_pos rfl]
  rw [takeWhile_eq_self_of h2, dropWhile_eq_nil_of h2]
  simp [hne, parseExpTail]

theorem jsUnsignedDec_eq_parseDec {cs : List Char} (hne : cs ≠ [])
    (hd : ∀ c ∈ cs, c.isDigit = true ∨ c = '.') : jsUnsignedDec cs = parseDec cs := by
  unfold jsUnsignedDec
  rw [if_neg]
  intro h
  cases cs with
  | nil => exact hne rfl
  | cons c t =>
    have hInf : "Infinity".data = 'I' :: "nfinity".data := rfl
    rw [hInf] at h
    have hc := (List.cons.inj h).1
    exact digit_dot_ne (hd c (List.mem_cons_self c t)) (by decide) (by decide) hc

theorem jsSignedDec_no_sign {c : Char} {t : List Char}
    (h : c.isDigit = true ∨ c = '.') : jsSignedDec (c :: t) = jsUnsignedDec (c :: t) := by
  have e : jsSignedDec (c :: t) =
      (if c = '+' then jsUnsignedDec t
       else if c = '-' then (jsUnsignedDec t).map Neg.neg
       else jsUnsignedDec (c :: t)) := rfl
  rw [e, if_neg (digit_dot_ne h (by decide) (by decide)),
    if_neg (digit_dot_ne h (by decide) (by decide))]

theorem jsNumParse_digit_dot {cs : List Char} (hne : cs ≠ [])
    (hd : ∀ c ∈ cs, c.isDigit = true ∨ c = '.') : jsNumParse cs = parseDec cs := by
  cases cs with
  | nil => exact absurd rfl hne
  | cons c0 t =>
    have h0 := hd c0 (List.mem_cons_self c0 t)
    cases t with
    | nil =>
      have e : jsNumParse [c0] = jsSignedDec [c0] := rfl
      rw [e, jsSignedDec_no_sign h0]
      exact jsUnsignedDec_eq_parseDec (by simp) (by simpa using h0)
    | cons c1 t' =>
      have h1 := hd c1 (List.mem_cons_of_mem c0 (List.mem_cons_self c1 t'))
      have e : jsNumParse (c0 :: c1 :: t') =
          (if c0 = '0' ∧ (c1 = 'x' ∨ c1 = 'X') then
            (parseRadixDigits 16 t').map (fun n => (n : ℚ))
          else if c0 = '0' ∧ (c1 = 'o' ∨ c1 = 'O') then
            (parseRadixDigits 8 t').map (fun n => (n : ℚ))
          else if c0 = '0' ∧ (c1 = 'b' ∨ c1 = 'B') then
            (parseRadixDigits 2 t').map (fun n => (n : ℚ))
          else jsSignedDec (c0 :: c1 :: t')) := rfl
      rw [e, if_neg, if_neg, if_neg, jsSignedDec_no_sign h0,
        jsUnsignedDec_eq_parseDec hne hd]
      · rintro ⟨-, rfl | rfl⟩ <;>
          exact absurd rfl (digit_dot_ne h1 (by decide) (by decide))
      · rintro ⟨-, rfl | rfl⟩ <;>
          exact absurd rfl (digit_dot_ne h1 (by decide) (by decide))
      · rintro ⟨-, rfl | rfl⟩ <;>
          exact absurd rfl (digit_dot_ne h1 (by decide) (by decide))

theorem jsNumParse_minus (t : List Char) :
    jsNumParse ('-' :: t) = (jsUnsignedDec t).map Neg.neg := by
  cases t with
  | nil => rfl
  | cons c1 t' =>
    have e : jsNumParse ('-' :: c1 :: t') =
        (if ('-' : Char) = '0' ∧ (c1 = 'x' ∨ c1 = 'X') then
          (parseRadixDigits 16 t').map (fun n => (n : ℚ))
        else if ('-' : Char) = '0' ∧ (c1 = 'o' ∨ c1 = 'O') then
          (parseRadixDigits 8 t').map (fun n => (n : ℚ))
        else if ('-' : Char) = '0' ∧ (c1 = 'b' ∨ c1 = 'B') then
          (parseRadixDigits 2 t').map (fun n => (n : ℚ))
        else jsSignedDec ('-' :: c1 :: t')) := rfl
    rw [e, if_neg, if_neg, if_neg]
    · rfl
    · rintro ⟨h, -⟩; exact absurd h (by decide)
    · rintro ⟨h, -⟩; exact absurd h (by decide)
    · rintro ⟨h, -⟩; exact absurd h (by decide)

/-! ## Numeric-shape strings through `parseQuantity` -/

theorem class_not_space {c : Char} (h : c.isDigit = true ∨ c = '.' ∨ c = '-') :
    isJsSpace c = false := by
  rcases h with h | h | h
  · exact isJsSpace_eq_false (Or.inl h)
  · exact isJsSpace_eq_false (Or.inr (Or.inl h))
  · exact isJsSpace_eq_false (Or.inr (Or.inr (Or.inl h)))

theorem class_ne_space {c : Char} (h : c.isDigit = true ∨ c = '.' ∨ c = '-') : c ≠ ' ' := by
  rcases h with h | rfl | rfl
  · exact isDigit_ne h (by decide)
  · decide
  · decide

theorem class_ne_slash {c : Char} (h : c.isDigit = true ∨ c = '.' ∨ c = '-') : c ≠ '/' := by
  rcases h with h | rfl | rfl
  · exact isDigit_ne h (by decide)
  · decide
  · decide

theorem jsToNumberL_parseDec {cs : List Char} (hne : cs ≠ [])
    (hd : ∀ c ∈ cs, c.isDigit = true ∨ c = '.') : jsToNumberL cs = parseDec cs := by
  simp only [jsToNumberL]
  rw [jsTrimL_eq_self (fun c hc => class_not_space ((hd c hc).imp_right Or.inl)),
    if_neg hne]
  exact jsNumParse_digit_dot hne hd

theorem jsToNumberL_minus {cs : List Char} (hne : cs ≠ [])
    (hd : ∀ c ∈ cs, c.isDigit = true ∨ c = '.') :
    jsToNumberL ('-' :: cs) = (parseDec cs).map Neg.neg := by
  simp only [jsToNumberL]
  rw [jsTrimL_eq_self, if_neg (List.cons_ne_nil _ _), jsNumParse_minus,
    jsUnsignedDec_eq_parseDec hne hd]
  intro c hc
  rcases List.mem_cons.mp hc with rfl | hc
  · exact class_not_space (Or.inr (Or.inr rfl))
  · exact class_not_space ((hd c hc).imp_right Or.inl)

theorem fractionToNumberL_no_slash {cs : List Char} (hne : cs ≠ [])
    (hsl : hasChar '/' cs = false) : fractionToNumberL cs = jsToNumberL cs := by
  simp [fractionToNumberL, hne, hsl]

theorem parseQuantity_single {cs : List Char} (hne : cs ≠ [])
    (hcl : ∀ c ∈ cs, c.isDigit = true ∨ c = '.' ∨ c = '-') :
    parseQuantity ⟨cs⟩ = jsToNumberL cs := by
  have hmkne : (⟨cs⟩ : String) ≠ "" := fun h => hne (congrArg String.data h)
  have htrim : jsTrimL cs = cs := jsTrimL_eq_self fun c hc => class_not_space (hcl c hc)
  simp only [parseQuantity, if_neg hmkne]
  rw [htrim, if_neg hne,
    splitChar_of_no_sep fun c hc => class_ne_space (hcl c hc)]
  have hfr : fractionToNumberL cs = jsToNumberL cs :=
    fractionToNumberL_no_slash hne
      (hasChar_eq_false_of fun c hc => class_ne_slash (hcl c hc))
  simp only [loopTokens, hfr]
  cases h : jsToNumberL cs with
  | none => rfl
  | some v => simp [loopTokens]

theorem jsToNumberL_natDigits (m : Nat) : jsToNumberL (natDigits m) = some ((m : ℚ)) := by
  rw [jsToNumberL_parseDec (natDigits_ne_nil m) fun c hc => Or.inl (natDigits_digits m c hc),
    parseDec_digits (natDigits_ne_nil m) (natDigits_digits m), digitsVal_natDigits]

theorem parseQuantity_natRepr (m : Nat) : parseQuantity (natRepr m) = some ((m : ℚ)) := by
  unfold natRepr
  rw [parseQuantity_single (natDigits_ne_nil m)
    fun c hc => Or.inl (natDigits_digits m c hc), jsToNumberL_natDigits]

theorem parseQuantity_neg_natRepr (m : Nat) :
    parseQuantity ⟨'-' :: natDigits m⟩ = some (-(m : ℚ)) := by
  rw [parseQuantity_single (List.cons_ne_nil _ _) ?hcl]
  case hcl =>
    intro c hc
    rcases List.mem_cons.mp hc with rfl | hc
    · exact Or.inr (Or.inr rfl)
    · exact Or.inl (natDigits_digits m c hc)
  rw [jsToNumberL_minus (natDigits_ne_nil m) (fun c hc => Or.inl (natDigits_digits m c hc)),
    parseDec_digits (natDigits_ne_nil m) (natDigits_digits m), digitsVal_natDigits]
  rfl

theorem parseQuantity_decimal (a : Nat) (ds2 : List Char)
    (h2 : ∀ c ∈ ds2, c.isDigit = true) :
    parseQuantity ⟨natDigits a ++ '.' :: ds2⟩ =
      some ((a : ℚ) + (digitsVal ds2 : ℚ) / (10 : ℚ) ^ ds2.length) := by
  have hclA : ∀ c ∈ natDigits a ++ '.' :: ds2, c.isDigit = true ∨ c = '.' := by
    intro c hc
    rcases List.mem_append.mp hc with hc | hc
    · exact Or.inl (natDigits_digits a c hc)
    · rcases List.mem_cons.mp hc with rfl | hc
      · exact Or.inr rfl
      · exact Or.inl (h2 c hc)
  have hne : natDigits a ++ '.' :: ds2 ≠ [] := by simp
  rw [parseQuantity_single hne (fun c hc => (hclA c hc).imp_right Or.inl),
    jsToNumberL_parseDec hne hclA,
    parseDec_point (natDigits_ne_nil a) (natDigits_digits a) h2, digitsVal_natDigits]

theorem parseQuantity_neg_decimal (a : Nat) (ds2 : List Char)
    (h2 : ∀ c ∈ ds2, c.isDigit = true) :
    parseQuantity ⟨'-' :: (natDigits a ++ '.' :: ds2)⟩ =
      some (-((a : ℚ) + (digitsVal ds2 : ℚ) / (10 : ℚ) ^ ds2.length)) := by
  have hclA : ∀ c ∈ natDigits a ++ '.' :: ds2, c.isDigit = true ∨ c = '.' := by
    intro c hc
    rcases List.mem_append.mp hc with hc | hc
    · exact Or.inl (natDigits_digits a c hc)
    · rcases List.mem_cons.mp hc with rfl | hc
      · exact Or.inr rfl
      · exact Or.inl (h2 c hc)
  have hne : natDigits a ++ '.' :: ds2 ≠ [] := by simp
  rw [parseQuantity_single (List.cons_ne_nil _ _) ?hcl]
  case hcl =>
    intro c hc
    rcases List.mem_cons.mp hc with rfl | hc
    · exact Or.inr (Or.inr rfl)
    · exact (hclA c hc).imp_right Or.inl
  rw [jsToNumberL_minus hne hclA,
    parseDec_point (natDigits_ne_nil a) (natDigits_digits a) h2, digitsVal_natDigits]
  rfl

/-! ## Trailing-zero stripping on `toFixed(2)` shapes -/

theorem stripZerosL_keep {A : List Char} {c1 c2 : Char} (h2 : c2 ≠ '0') :
    stripZerosL (A ++ ['.', c1, c2]) = A ++ ['.', c1, c2] := by
  have hr : (A ++ ['.', c1, c2]).reverse = c2 :: c1 :: '.' :: A.reverse := by simp
  simp only [stripZerosL, hr]
  rw [if_neg (by simp [h2])]

theorem stripZerosL_one {A : List Char} {c1 : Char} (h1 : c1 ≠ '0') (h1' : c1 ≠ '.') :
    stripZerosL (A ++ ['.', c1, '0']) = A ++ ['.', c1] := by
  have hr : (A ++ ['.', c1, '0']).reverse = '0' :: c1 :: '.' :: A.reverse := by simp
  simp only [stripZerosL, hr]
  have hc0 : (('0' : Char) :: c1 :: '.' :: A.reverse).head? = some '0' := rfl
  rw [if_pos hc0]
  have hd : List.dropWhile (fun c => c == '0') ('0' :: c1 :: '.' :: A.reverse) =
      c1 :: '.' :: A.reverse := by
    simp [List.dropWhile_cons, beq_eq_false_iff_ne.mpr h1]
  simp [hd, h1']

theorem stripZerosL_two {A : List Char} :
    stripZerosL (A ++ ['.', '0', '0']) = A := by
  have hr : (A ++ ['.', '0', '0']).reverse = '0' :: '0' :: '.' :: A.reverse := by simp
  simp only [stripZerosL, hr]
  have hc0 : (('0' : Char) :: '0' :: '.' :: A.reverse).head? = some '0' := rfl
  rw [if_pos hc0]
  have hd : List.dropWhile (fun c => c == '0') ('0' :: '0' :: '.' :: A.reverse) =
      '.' :: A.reverse := by
    simp [List.dropWhile_cons]
  simp [hd]

/-! ## Token loop lemmas -/

theorem loopTokens_none_iff (l : List (List Char)) (acc : ℚ) :
    loopTokens l acc = none ↔ ∃ t ∈ l, fractionToNumberL t = none := by
  induction l generalizing acc with
  | nil => simp [loopTokens]
  | cons p ps ih =>
    simp only [loopTokens]
    cases h : fractionToNumberL p with
    | none =>
      constructor
      · intro _
        exact ⟨p, List.mem_cons_self p ps, h⟩
      · intro _
        rfl
    | some v =>
      rw [ih]
      constructor
      · rintro ⟨t, ht, hf⟩
        exact ⟨t, List.mem_cons_of_mem p ht, hf⟩
      · rintro ⟨t, ht, hf⟩
        rcases List.mem_cons.mp ht with rfl | ht
        · rw [h] at hf
          exact absurd hf (by simp)
        · exact ⟨t, ht, hf⟩

theorem loopTokens_eq (l : List (List Char)) (acc : ℚ) :
    loopTokens l acc = (parseTokens l).map (fun vs => acc + vs.sum) := by
  induction l generalizing acc with
  | nil => simp [loopTokens, parseTokens]
  | cons p ps ih =>
    simp only [loopTokens, parseTokens]
    cases h : fractionToNumberL p with
    | none => simp
    | some v =>
      cases hm : parseTokens ps <;> simp [ih, hm, List.sum_cons, add_assoc]

/-! ## Double spaces produce an empty token -/

theorem splitChar_cons_shape (c c2 : Char) (rest : List Char) :
    ∃ u us, splitChar ' ' (c2 :: rest) = u :: us ∧
      splitChar ' ' (c :: c2 :: rest) =
        (if c = ' ' then [] :: u :: us else (c :: u) :: us) := by
  obtain ⟨u, us, hsplit⟩ : ∃ u us, splitChar ' ' (c2 :: rest) = u :: us := by
    cases hs : splitChar ' ' (c2 :: rest) with
    | nil => exact absurd hs (splitChar_ne_nil ' ' (c2 :: rest))
    | cons u us => exact ⟨u, us, rfl⟩
  refine ⟨u, us, hsplit, ?_⟩
  unfold splitChar
  rw [show splitChar ' ' (c2 :: rest) = u :: us from hsplit]

theorem nil_mem_drop_splitChar_of_double_space :
    ∀ l : List Char, hasDoubleSpace l = true → [] ∈ (splitChar ' ' l).drop 1 := by
  intro l
  induction l with
  | nil => intro h'; exact absurd h' (by simp [hasDoubleSpace])
  | cons c t ih =>
    intro h'
    cases t with
    | nil => exact absurd h' (by simp [hasDoubleSpace])
    | cons c2 rest =>
      obtain ⟨u, us, hsplit, hout⟩ := splitChar_cons_shape c c2 rest
      have h2 : (c = ' ' ∧ c2 = ' ') ∨ hasDoubleSpace (c2 :: rest) = true := by
        simpa [hasDoubleSpace] using h'
      rcases h2 with ⟨hc, hc2⟩ | htail
      · have hu : u = [] := by
          subst hc2
          obtain ⟨w, ws, hw⟩ : ∃ w ws, splitChar ' ' rest = w :: ws := by
            cases hs : splitChar ' ' rest with
            | nil => exact absurd hs (splitChar_ne_nil ' ' rest)
            | cons w ws => exact ⟨w, ws, rfl⟩
          have he : splitChar ' ' (' ' :: rest) = [] :: w :: ws := by
            unfold splitChar
            rw [hw]
            simp
          rw [he] at hsplit
          exact (List.cons.inj hsplit).1.symm
        rw [hout, if_pos hc, List.drop_one, List.tail_cons, hu]
        exact List.mem_cons_self [] us
      · have hmem : [] ∈ us := by
          have := ih htail
          rw [hsplit, List.drop_one, List.tail_cons] at this
          exact this
        rw [hout]
        by_cases hc : c = ' '
        · rw [if_pos hc, List.drop_one, List.tail_cons]
          exact List.mem_cons_of_mem u hmem
        · rw [if_neg hc, List.drop_one, List.tail_cons]
          exact hmem

theorem nil_mem_splitChar_of_double_space {l : List Char}
    (h : hasDoubleSpace l = true) : [] ∈ splitChar ' ' l :=
  List.mem_of_mem_drop (nil_mem_drop_splitChar_of_double_space l h)

/-! ## Rounding and integer rendering lemmas -/

theorem floor_round_abs (y : ℚ) : |((⌊y + 1 / 2⌋ : ℤ) : ℚ) - y| ≤ 1 / 2 := by
  have h1 : ((⌊y + 1 / 2⌋ : ℤ) : ℚ) ≤ y + 1 / 2 := Int.floor_le _
  have h2 : y + 1 / 2 - 1 < ((⌊y + 1 / 2⌋ : ℤ) : ℚ) := Int.sub_one_lt_floor _
  rw [abs_le]
  constructor <;> linarith

theorem rat_eq_num_of_den_one {x : ℚ} (h : x.den = 1) : ((x.num : ℚ)) = x := by
  conv_rhs => rw [← Rat.num_div_den x]
  rw [h]
  simp

theorem jsPosRepr_den_one {q : ℚ} (h : q.den = 1) : jsPosRepr q = natRepr q.num.toNat := by
  unfold jsPosRepr
  rw [h, if_pos (Nat.mod_one q.num.toNat), Nat.div_one]

theorem parseQuantity_jsNumToString_int {x : ℚ} (hden : x.den = 1) :
    parseQuantity (jsNumToString x) = some x := by
  rcases lt_or_le x 0 with hx | hx
  · have hdenneg : (-x).den = 1 := by rw [Rat.neg_den, hden]
    have hnneg : 0 ≤ (-x).num := by
      rw [Rat.num_nonneg]
      linarith
    have hrepr : jsNumToString x = ⟨'-' :: natDigits ((-x).num.toNat)⟩ := by
      unfold jsNumToString
      rw [if_pos hx, jsPosRepr_den_one hdenneg]
      rfl
    rw [hrepr, parseQuantity_neg_natRepr]
    congr 1
    have h3 : (((-x).num.toNat : ℚ)) = -x := by
      rw [← rat_eq_num_of_den_one hdenneg]
      exact_mod_cast congrArg (fun z : ℤ => (z : ℚ)) (Int.toNat_of_nonneg hnneg)
    rw [h3]
    ring
  · have hnneg : 0 ≤ x.num := by
      rw [Rat.num_nonneg]
      exact hx
    have hrepr : jsNumToString x = natRepr x.num.toNat := by
      unfold jsNumToString
      rw [if_neg (not_lt.mpr hx), jsPosRepr_den_one hden]
    rw [hrepr, parseQuantity_natRepr]
    congr 1
    rw [← rat_eq_num_of_den_one hden]
    exact_mod_cast congrArg (fun z : ℤ => (z : ℚ)) (Int.toNat_of_nonneg hnneg)

theorem cast_div100_add (n : Nat) :
    ((n / 100 : ℕ) : ℚ) + ((n % 100 : ℕ) : ℚ) / 100 = (n : ℚ) / 100 := by
  have h : (100 : ℚ) * ((n / 100 : ℕ) : ℚ) + ((n % 100 : ℕ) : ℚ) = (n : ℚ) := by
    exact_mod_cast congrArg (fun m : ℕ => (m : ℚ)) (Nat.div_add_mod n 100)
  field_simp
  linarith

theorem cast_div10_of_mod10 {k : Nat} (h : k % 10 = 0) :
    ((k / 10 : ℕ) : ℚ) / 10 = ((k : ℕ) : ℚ) / 100 := by
  have h10 : 10 * (k / 10) = k := by omega
  have hc : (10 : ℚ) * ((k / 10 : ℕ) : ℚ) = (k : ℚ) := by
    exact_mod_cast congrArg (fun m : ℕ => (m : ℚ)) h10
  field_simp
  linarith

/-! ## Round-trip through `toFixed(2)` plus stripping -/

theorem digitsVal_single (c : Char) : digitsVal [c] = digitVal c := by
  simp [digitsVal, List.foldl]

theorem digitsVal_pair (c1 c2 : Char) : digitsVal [c1, c2] = 10 * digitVal c1 + digitVal c2 := by
  simp [digitsVal, List.foldl]

theorem parseQuantity_strip_fix2_nonneg {x : ℚ} (hx : 0 ≤ x) :
    parseQuantity (stripTrailingZeros (jsToFixed2 x)) =
      some (((((Int.floor (x * 100 + 1 / 2)).toNat : ℕ) : ℚ)) / 100) := by
  set n := (Int.floor (x * 100 + 1 / 2)).toNat with hn
  have hfix : jsToFixed2 x = ⟨jsToFixed2Core x⟩ := by
    unfold jsToFixed2
    rw [if_neg (not_lt.mpr hx)]
  have hcore : jsToFixed2Core x =
      natDigits (n / 100) ++ ['.', digitChar (n % 100 / 10), digitChar (n % 100 % 10)] := by
    rw [hn]
    rfl
  have hk100 : n % 100 < 100 := Nat.mod_lt _ (by norm_num)
  have hd1lt : n % 100 / 10 < 10 := by omega
  have hd2lt : n % 100 % 10 < 10 := by omega
  rw [hfix, hcore]
  by_cases h10 : n % 100 % 10 = 0
  · by_cases hk0 : n % 100 = 0
    · have hc1 : digitChar (n % 100 / 10) = '0' := by
        rw [show n % 100 / 10 = 0 by omega]
        rfl
      have hc2 : digitChar (n % 100 % 10) = '0' := by
        rw [show n % 100 % 10 = 0 by omega]
        rfl
      rw [hc1, hc2]
      have hs : stripTrailingZeros ⟨natDigits (n / 100) ++ ['.', '0', '0']⟩ =
          ⟨stripZerosL (natDigits (n / 100) ++ ['.', '0', '0'])⟩ := rfl
      rw [hs, stripZerosL_two]
      rw [show (⟨natDigits (n / 100)⟩ : String) = natRepr (n / 100) from rfl,
        parseQuantity_natRepr]
      congr 1
      have hca := cast_div100_add n
      rw [hk0] at hca
      simpa using hca
    · have hc2 : digitChar (n % 100 % 10) = '0' := by
        rw [h10]
        rfl
      have hd1ne : n % 100 / 10 ≠ 0 := by omega
      have hc1ne : digitChar (n % 100 / 10) ≠ '0' := by
        intro h
        exact hd1ne ((digitChar_eq_zero_iff hd1lt).mp h)
      have hc1dot : digitChar (n % 100 / 10) ≠ '.' :=
        isDigit_ne (digitChar_isDigit hd1lt) (by decide)
      rw [hc2]
      have hs : stripTrailingZeros ⟨natDigits (n / 100) ++ ['.', digitChar (n % 100 / 10), '0']⟩ =
          ⟨stripZerosL (natDigits (n / 100) ++ ['.', digitChar (n % 100 / 10), '0'])⟩ := rfl
      rw [hs, stripZerosL_one hc1ne hc1dot]
      have hshape : natDigits (n / 100) ++ ['.', digitChar (n % 100 / 10)] =
          natDigits (n / 100) ++ '.' :: [digitChar (n % 100 / 10)] := rfl
      rw [hshape, parseQuantity_decimal (n / 100) [digitChar (n % 100 / 10)] ?hdig]
      case hdig =>
        intro c hc
        rw [List.mem_singleton.mp hc]
        exact digitChar_isDigit hd1lt
      congr 1
      rw [digitsVal_single, digitVal_digitChar hd1lt]
      rw [show (10 : ℚ) ^ ([digitChar (n % 100 / 10)].length) = 10 by norm_num]
      rw [cast_div10_of_mod10 h10, cast_div100_add n]
  · have hc2ne : digitChar (n % 100 % 10) ≠ '0' := by
      intro h
      exact h10 ((digitChar_eq_zero_iff hd2lt).mp h)
    have hs : stripTrailingZeros
        ⟨natDigits (n / 100) ++ ['.', digitChar (n % 100 / 10), digitChar (n % 100 % 10)]⟩ =
        ⟨stripZerosL (natDigits (n / 100) ++
          ['.', digitChar (n % 100 / 10), digitChar (n % 100 % 10)])⟩ := rfl
    rw [hs, stripZerosL_keep hc2ne]
    have hshape : natDigits (n / 100) ++ ['.', digitChar (n % 100 / 10), digitChar (n % 100 % 10)] =
        natDigits (n / 100) ++ '.' :: [digitChar (n % 100 / 10), digitChar (n % 100 % 10)] := rfl
    rw [hshape,
      parseQuantity_decimal (n / 100) [digitChar (n % 100 / 10), digitChar (n % 100 % 10)] ?hdig]
    case hdig =>
      intro c hc
      simp only [List.mem_cons, List.mem_singleton, List.not_mem_nil, or_false] at hc
      rcases hc with rfl | rfl
      · exact digitChar_isDigit hd1lt
      · exact digitChar_isDigit hd2lt
    congr 1
    rw [digitsVal_pair, digitVal_digitChar hd1lt, digitVal_digitChar hd2lt]
    rw [show (10 : ℚ) ^
      ([digitChar (n % 100 / 10), digitChar (n % 100 % 10)].length) = 100 by norm_num]
    rw [show ((10 * (n % 100 / 10) + n % 100 % 10 : ℕ) : ℚ) = ((n % 100 : ℕ) : ℚ) by
      exact_mod_cast congrArg (fun m : ℕ => (m : ℚ)) (by omega : 10 * (n % 100 / 10) + n % 100 % 10 = n % 100)]
    exact cast_div100_add n

theorem parseQuantity_strip_fix2_neg {x : ℚ} (hx : x < 0) :
    parseQuantity (stripTrailingZeros (jsToFixed2 x)) =
      some (-(((((Int.floor ((-x) * 100 + 1 / 2)).toNat : ℕ) : ℚ)) / 100)) := by
  set m := (Int.floor ((-x) * 100 + 1 / 2)).toNat with hm
  have hfix : jsToFixed2 x = ⟨'-' :: jsToFixed2Core (-x)⟩ := by
    unfold jsToFixed2
    rw [if_pos hx]
    rfl
  have hcore : jsToFixed2Core (-x) =
      natDigits (m / 100) ++ ['.', digitChar (m % 100 / 10), digitChar (m % 100 % 10)] := by
    rw [hm]
    rfl
  have hk100 : m % 100 < 100 := Nat.mod_lt _ (by norm_num)
  have hd1lt : m % 100 / 10 < 10 := by omega
  have hd2lt : m % 100 % 10 < 10 := by omega
  rw [hfix, hcore]
  by_cases h10 : m % 100 % 10 = 0
  · by_cases hk0 : m % 100 = 0
    · have hc1 : digitChar (m % 100 / 10) = '0' := by
        rw [show m % 100 / 10 = 0 by omega]
        rfl
      have hc2 : digitChar (m % 100 % 10) = '0' := by
        rw [show m % 100 % 10 = 0 by omega]
        rfl
      rw [hc1, hc2]
      have hre : ('-' : Char) :: (natDigits (m / 100) ++ ['.', '0', '0']) =
          ('-' :: natDigits (m / 100)) ++ ['.', '0', '0'] := rfl
      have hs : stripTrailingZeros ⟨'-' :: (natDigits (m / 100) ++ ['.', '0', '0'])⟩ =
          ⟨stripZerosL (('-' :: natDigits (m / 100)) ++ ['.', '0', '0'])⟩ := by
        rw [show stripTrailingZeros ⟨'-' :: (natDigits (m / 100) ++ ['.', '0', '0'])⟩ =
          ⟨stripZerosL ('-' :: (natDigits (m / 100) ++ ['.', '0', '0']))⟩ from rfl, hre]
      rw [hs, stripZerosL_two, parseQuantity_neg_natRepr]
      congr 1
      rw [neg_inj]
      have hca := cast_div100_add m
      rw [hk0] at hca
      simpa using hca
    · have hc2 : digitChar (m % 100 % 10) = '0' := by
        rw [h10]
        rfl
      have hd1ne : m % 100 / 10 ≠ 0 := by omega
      have hc1ne : digitChar (m % 100 / 10) ≠ '0' := by
        intro h
        exact hd1ne ((digitChar_eq_zero_iff hd1lt).mp h)
      have hc1dot : digitChar (m % 100 / 10) ≠ '.' :=
        isDigit_ne (digitChar_isDigit hd1lt) (by decide)
      rw [hc2]
      have hre : ('-' : Char) :: (natDigits (m / 100) ++ ['.', digitChar (m % 100 / 10), '0']) =
          ('-' :: natDigits (m / 100)) ++ ['.', digitChar (m % 100 / 10), '0'] := rfl
      have hs : stripTrailingZeros
          ⟨'-' :: (natDigits (m / 100) ++ ['.', digitChar (m % 100 / 10), '0'])⟩ =
          ⟨stripZerosL (('-' :: natDigits (m / 100)) ++ ['.', digitChar (m % 100 / 10), '0'])⟩ := by
        rw [show stripTrailingZeros
          ⟨'-' :: (natDigits (m / 100) ++ ['.', digitChar (m % 100 / 10), '0'])⟩ =
          ⟨stripZerosL ('-' :: (natDigits (m / 100) ++ ['.', digitChar (m % 100 / 10), '0']))⟩
          from rfl, hre]
      rw [hs, stripZerosL_one hc1ne hc1dot]
      have hshape : ('-' :: natDigits (m / 100)) ++ ['.', digitChar (m % 100 / 10)] =
          '-' :: (natDigits (m / 100) ++ '.' :: [digitChar (m % 100 / 10)]) := rfl
      rw [hshape, parseQuantity_neg_decimal (m / 100) [digitChar (m % 100 / 10)] ?hdig]
      case hdig =>
        intro c hc
        rw [List.mem_singleton.mp hc]
        exact digitChar_isDigit hd1lt
      congr 1
      rw [neg_inj]
      rw [digitsVal_single, digitVal_digitChar hd1lt]
      rw [show (10 : ℚ) ^ ([digitChar (m % 100 / 10)].length) = 10 by norm_num]
      rw [cast_div10_of_mod10 h10, cast_div100_add m]
  · have hc2ne : digitChar (m % 100 % 10) ≠ '0' := by
      intro h
      exact h10 ((digitChar_eq_zero_iff hd2lt).mp h)
    have hre : ('-' : Char) ::
        (natDigits (m / 100) ++ ['.', digitChar (m % 100 / 10), digitChar (m % 100 % 10)]) =
        ('-' :: natDigits (m / 100)) ++
          ['.', digitChar (m % 100 / 10), digitChar (m % 100 % 10)] := rfl
    have hs : stripTrailingZeros
        ⟨'-' :: (natDigits (m / 100) ++
          ['.', digitChar (m % 100 / 10), digitChar (m % 100 % 10)])⟩ =
        ⟨stripZerosL (('-' :: natDigits (m / 100)) ++
          ['.', digitChar (m % 100 / 10), digitChar (m % 100 % 10)])⟩ := by
      rw [show stripTrailingZeros
        ⟨'-' :: (natDigits (m / 100) ++
          ['.', digitChar (m % 100 / 10), digitChar (m % 100 % 10)])⟩ =
        ⟨stripZerosL ('-' :: (natDigits (m / 100) ++
          ['.', digitChar (m % 100 / 10), digitChar (m % 100 % 10)]))⟩ from rfl, hre]
    rw [hs, stripZerosL_keep hc2ne]
    have hshape : ('-' :: natDigits (m / 100)) ++
        ['.', digitChar (m % 100 / 10), digitChar (m % 100 % 10)] =
        '-' :: (natDigits (m / 100) ++
          '.' :: [digitChar (m % 100 / 10), digitChar (m % 100 % 10)]) := rfl
    rw [hshape, parseQuantity_neg_decimal (m / 100)
      [digitChar (m % 100 / 10), digitChar (m % 100 % 10)] ?hdig]
    case hdig =>
      intro c hc
      simp only [List.mem_cons, List.mem_singleton, List.not_mem_nil, or_false] at hc
      rcases hc with rfl | rfl
      · exact digitChar_isDigit hd1lt
      · exact digitChar_isDigit hd2lt
    congr 1
    rw [neg_inj]
    rw [digitsVal_pair, digitVal_digitChar hd1lt, digitVal_digitChar hd2lt]
    rw [show (10 : ℚ) ^
      ([digitChar (m % 100 / 10), digitChar (m % 100 % 10)].length) = 100 by norm_num]
    rw [show ((10 * (m % 100 / 10) + m % 100 % 10 : ℕ) : ℚ) = ((m % 100 : ℕ) : ℚ) by
      exact_mod_cast congrArg (fun j : ℕ => (j : ℚ)) (by omega : 10 * (m % 100 / 10) + m % 100 % 10 = m % 100)]
    exact cast_div100_add m

/-! ## Failure characterization of the parser -/

theorem fractionToNumberL_none_iff (t : List Char) :
    fractionToNumberL t = none ↔ (t = [] ∨ tokenFailsC3 t = true) := by
  by_cases hnil : t = []
  · subst hnil
    simp [fractionToNumberL]
  · simp only [fractionToNumberL, if_neg hnil]
    by_cases hsl : hasChar '/' t = true
    · rw [if_pos hsl]
      simp only [tokenFailsC3, if_pos hsl]
      cases h1 : jsToNumberL ((splitChar '/' t).getD 0 []) with
      | none => simp [hnil]
      | some n =>
        cases h2 : jsToNumberL ((splitChar '/' t).getD 1 []) with
        | none => simp [hnil]
        | some d =>
          by_cases hd : d = 0
          · simp [hd, hnil]
          · simp [hd, hnil]
    · rw [if_neg hsl]
      simp only [tokenFailsC3, if_neg hsl]
      simp [hnil, Option.isNone_iff_eq_none]

theorem parseQuantity_none_iff (raw : String) :
    parseQuantity raw = none ↔
      ∃ p ∈ tokensOf raw, (p = [] ∨ tokenFailsC3 p = true) := by
  by_cases hraw : raw = ""
  · subst hraw
    constructor
    · intro _
      exact ⟨[], by decide, Or.inl rfl⟩
    · intro _
      rfl
  · by_cases htext : jsTrimL raw.data = []
    · constructor
      · intro _
        refine ⟨[], ?_, Or.inl rfl⟩
        unfold tokensOf
        rw [htext]
        exact List.mem_singleton.mpr rfl
      · intro _
        simp [parseQuantity, hraw, htext]
    · have hq : parseQuantity raw = loopTokens (tokensOf raw) 0 := by
        simp [parseQuantity, hraw, htext, tokensOf]
      rw [hq, loopTokens_none_iff]
      exact exists_congr fun t =>
        and_congr_right fun _ => fractionToNumberL_none_iff t

theorem parseQuantity_none_of_double_space {raw : String}
    (h : hasDoubleSpace (jsTrimL raw.data) = true) : parseQuantity raw = none := by
  by_cases hraw : raw = ""
  · subst hraw
    rfl
  · have htext : jsTrimL raw.data ≠ [] := by
      intro he
      rw [he] at h
      exact absurd h (by simp [hasDoubleSpace])
    have hq : parseQuantity raw = loopTokens (splitChar ' ' (jsTrimL raw.data)) 0 := by
      simp [parseQuantity, hraw, htext]
    rw [hq, loopTokens_none_iff]
    exact ⟨[], nil_mem_splitChar_of_double_space h, by simp [fractionToNumberL]⟩

/-! ## Claim theorems -/

unseal Rat.mul Rat.add Rat.inv Rat.sub in
/-- Claim C1: for every non-empty quantity string `raw` and scale `s ≠ 1`,
if `parseQuantity raw` succeeds with value `v`, then `formatScaledQuantity`
renders `v * s` as its plain decimal representation when the product is a
whole number, and otherwise as the two-decimal fixed rendering with
trailing zeros and a remaining trailing decimal point stripped; in
particular scaling `"1/2"` by 4 gives `"2"` and `"1 1/2"` by 2 gives
`"3"`. -/
theorem claim_C1 :
    (∀ (raw : String) (s v : ℚ), raw ≠ "" → s ≠ 1 → parseQuantity raw = some v →
      formatScaledQuantity (some raw) s =
        (if (v * s).den = 1 then jsNumToString (v * s)
         else stripTrailingZeros (jsToFixed2 (v * s)))) ∧
    formatScaledQuantity (some "1/2") 4 = "2" ∧
    formatScaledQuantity (some "1 1/2") 2 = "3" := by
  refine ⟨?_, by decide, by decide⟩
  intro raw s v hraw hs hparse
  simp only [formatScaledQuantity]
  rw [if_neg (fun h => h.elim hraw hs), hparse]

unseal Rat.mul Rat.add Rat.inv Rat.sub in
/-- Witness for C1 at `raw = "1 1/2"`, `s = 2`, `v = 3/2`. -/
theorem claim_C1_witness :
    parseQuantity "1 1/2" = some (3 / 2) ∧
    formatScaledQuantity (some "1 1/2") 2 =
      (if ((3 / 2 : ℚ) * 2).den = 1 then jsNumToString ((3 / 2 : ℚ) * 2)
       else stripTrailingZeros (jsToFixed2 ((3 / 2 : ℚ) * 2))) :=
  ⟨by decide, claim_C1.1 "1 1/2" 2 (3 / 2) (by decide) (by decide) (by decide)⟩

unseal Rat.mul Rat.add Rat.inv Rat.sub in
/-- Claim C2: `parseQuantity` trims whitespace, fails on empty (trimmed)
input, splits the trimmed text on single spaces into tokens, parses each
token independently and returns the sum of the token values;
`parseQuantity "1 1/2" = 1.5`, `parseQuantity "3/4" = 0.75`,
`parseQuantity "2" = 2`. -/
theorem claim_C2 :
    (∀ raw : String, parseQuantity raw = parseQuantityDesc raw) ∧
    parseQuantity "1 1/2" = some (3 / 2) ∧
    parseQuantity "3/4" = some (3 / 4) ∧
    parseQuantity "2" = some 2 := by
  refine ⟨?_, by decide, by decide, by decide⟩
  intro raw
  by_cases hraw : raw = ""
  · subst hraw
    decide
  · simp only [parseQuantity, parseQuantityDesc, if_neg hraw]
    by_cases htext : jsTrimL raw.data = []
    · simp [htext]
    · simp only [if_neg htext]
      rw [loopTokens_eq]
      cases h : parseTokens (splitChar ' ' (jsTrimL raw.data)) <;> simp

unseal Rat.mul Rat.add Rat.inv Rat.sub in
/-- Counterexample to claim C3 as stated: `"1  2"` (with a double space)
parses to null although every one of its tokens satisfies the claim's
notion of parsing (the empty token converts to the finite number 0 and
contains no slash, so the claim's criterion says it does not fail). -/
theorem claim_C3_counterexample :
    parseQuantity "1  2" = none ∧
    tokensOf "1  2" = [['1'], [], ['2']] ∧
    tokenFailsC3 ['1'] = false ∧ tokenFailsC3 [] = false ∧ tokenFailsC3 ['2'] = false :=
  ⟨by decide, by decide, by decide, by decide, by decide⟩

unseal Rat.mul Rat.add Rat.inv Rat.sub in
/-- Claim C3 (amended): `parseQuantity` returns null exactly when some
token of the trimmed input is empty or fails to parse, where a token
containing `/` fails unless both its numerator and denominator
substrings parse as finite numbers with nonzero denominator, and a token
without `/` fails unless it parses as a finite number; in particular
`parseQuantity "abc" = null` and `parseQuantity "1/0" = null`. -/
theorem claim_C3_amended :
    (∀ raw : String, parseQuantity raw = none ↔
      ∃ p ∈ tokensOf raw, (p = [] ∨ tokenFailsC3 p = true)) ∧
    parseQuantity "abc" = none ∧ parseQuantity "1/0" = none :=
  ⟨parseQuantity_none_iff, by decide, by decide⟩

unseal Rat.mul Rat.add Rat.inv Rat.sub in
/-- Claim C4: with scale 1 the input text is returned unchanged, for every
string including the empty string and unparseable text. -/
theorem claim_C4 : ∀ raw : String, formatScaledQuantity (some raw) 1 = raw := by
  intro raw
  simp [formatScaledQuantity]

/-- Claim C5: `formatScaledQuantity` returns `""` when the raw quantity is
absent or empty; and for non-empty raw with scale `s ≠ 1` whose parse
fails it returns the original text annotated with the multiplier,
exactly `"<raw> (x<s>)"`, e.g. `"pinch"` at scale 2 gives
`"pinch (x2)"`. -/
theorem claim_C5 :
    (∀ s : ℚ, formatScaledQuantity none s = "") ∧
    (∀ s : ℚ, formatScaledQuantity (some "") s = "") ∧
    (∀ (raw : String) (s : ℚ), raw ≠ "" → s ≠ 1 → parseQuantity raw = none →
      formatScaledQuantity (some raw) s = raw ++ " (x" ++ jsNumToString s ++ ")") ∧
    formatScaledQuantity (some "pinch") 2 = "pinch (x2)" := by
  refine ⟨fun s => rfl, fun s => by simp [formatScaledQuantity], ?_, by decide⟩
  intro raw s hraw hs hparse
  simp only [formatScaledQuantity]
  rw [if_neg (fun h => h.elim hraw hs), hparse]

unseal Rat.mul Rat.add Rat.inv Rat.sub in
/-- Witness for C5 at `raw = "pinch"`, `s = 3`. -/
theorem claim_C5_witness :
    parseQuantity "pinch" = none ∧
    formatScaledQuantity (some "pinch") 3 = "pinch (x3)" := by
  have h := claim_C5.2.2.1 "pinch" 3 (by decide) (by decide) (by decide)
  refine ⟨by decide, ?_⟩
  rw [h]
  decide

unseal Rat.mul Rat.add Rat.inv Rat.sub in
/-- Claim C6: for every parseable quantity string `q` and scale `s ≠ 1`,
parsing the text produced by `formatScaledQuantity q s` yields a number
within `0.005` of `parseQuantity q * s` (the rounding introduced by the
two-decimal display). -/
theorem claim_C6 (q : String) (s v : ℚ) (hparse : parseQuantity q = some v) (hs : s ≠ 1) :
    ∃ v' : ℚ, parseQuantity (formatScaledQuantity (some q) s) = some v' ∧
      |v' - v * s| ≤ 1 / 200 := by
  have hq : q ≠ "" := by
    intro h
    rw [h, show parseQuantity "" = none from rfl] at hparse
    exact Option.noConfusion hparse
  have hfmt : formatScaledQuantity (some q) s =
      (if (v * s).den = 1 then jsNumToString (v * s)
       else stripTrailingZeros (jsToFixed2 (v * s))) := by
    simp only [formatScaledQuantity]
    rw [if_neg (fun h => h.elim hq hs), hparse]
  set x := v * s with hx
  by_cases hden : x.den = 1
  · refine ⟨x, ?_, by simp⟩
    rw [hfmt, if_pos hden, parseQuantity_jsNumToString_int hden]
  · rw [hfmt, if_neg hden]
    rcases le_or_lt 0 x with hxpos | hxneg
    · refine ⟨(((Int.floor (x * 100 + 1 / 2)).toNat : ℚ)) / 100,
        parseQuantity_strip_fix2_nonneg hxpos, ?_⟩
      have hfl : (0 : ℤ) ≤ Int.floor (x * 100 + 1 / 2) := by
        apply Int.floor_nonneg.mpr
        have h100 : (0 : ℚ) ≤ x * 100 := by positivity
        linarith
      have hcast : (((Int.floor (x * 100 + 1 / 2)).toNat : ℚ)) =
          ((Int.floor (x * 100 + 1 / 2) : ℤ) : ℚ) := by
        exact_mod_cast congrArg (fun z : ℤ => (z : ℚ)) (Int.toNat_of_nonneg hfl)
      rw [hcast]
      have hb := floor_round_abs (x * 100)
      rw [abs_le] at hb ⊢
      obtain ⟨hb1, hb2⟩ := hb
      constructor <;> linarith
    · refine ⟨-(((((Int.floor ((-x) * 100 + 1 / 2)).toNat : ℕ) : ℚ)) / 100),
        parseQuantity_strip_fix2_neg hxneg, ?_⟩
      have hfl : (0 : ℤ) ≤ Int.floor ((-x) * 100 + 1 / 2) := by
        apply Int.floor_nonneg.mpr
        have h100 : (0 : ℚ) ≤ (-x) * 100 := by
          have : (0 : ℚ) ≤ -x := by linarith
          positivity
        linarith
      have hcast : ((((Int.floor ((-x) * 100 + 1 / 2)).toNat : ℕ) : ℚ)) =
          ((Int.floor ((-x) * 100 + 1 / 2) : ℤ) : ℚ) := by
        exact_mod_cast congrArg (fun z : ℤ => (z : ℚ)) (Int.toNat_of_nonneg hfl)
      rw [hcast]
      have hb := floor_round_abs ((-x) * 100)
      rw [abs_le] at hb ⊢
      obtain ⟨hb1, hb2⟩ := hb
      constructor <;> linarith

unseal Rat.mul Rat.add Rat.inv Rat.sub in
/-- Witness for C6 at `q = "1/3"`, `s = 2`. -/
theorem claim_C6_witness :
    ∃ v' : ℚ, parseQuantity (formatScaledQuantity (some "1/3") 2) = some v' ∧
      |v' - (1 / 3 : ℚ) * 2| ≤ 1 / 200 :=
  claim_C6 "1/3" 2 (1 / 3) (by decide) (by decide)

/-- Claim C7: `formatTime` (missing arguments treated as 0) returns
`"Time varies"` when the total is 0, `"<total> min"` for totals below an
hour, and `"<hours>h <minutes>m"` or `"<hours>h"` for larger totals
according to whether the minute remainder is nonzero; in particular
`formatTime 30 20 = "50 min"`, `formatTime 40 35 = "1h 15m"`,
`formatTime 60 0 = "1h"`. -/
theorem claim_C7 :
    (∀ prep cook : Option Nat,
      (prep.getD 0 + cook.getD 0 = 0 → formatTime prep cook = "Time varies") ∧
      (0 < prep.getD 0 + cook.getD 0 → prep.getD 0 + cook.getD 0 < 60 →
        formatTime prep cook = natRepr (prep.getD 0 + cook.getD 0) ++ " min") ∧
      (60 ≤ prep.getD 0 + cook.getD 0 → (prep.getD 0 + cook.getD 0) % 60 ≠ 0 →
        formatTime prep cook =
          natRepr ((prep.getD 0 + cook.getD 0) / 60) ++ "h " ++
            natRepr ((prep.getD 0 + cook.getD 0) % 60) ++ "m") ∧
      (60 ≤ prep.getD 0 + cook.getD 0 → (prep.getD 0 + cook.getD 0) % 60 = 0 →
        formatTime prep cook = natRepr ((prep.getD 0 + cook.getD 0) / 60) ++ "h")) ∧
    formatTime (some 30) (some 20) = "50 min" ∧
    formatTime (some 40) (some 35) = "1h 15m" ∧
    formatTime (some 60) (some 0) = "1h" := by
  refine ⟨?_, by decide, by decide, by decide⟩
  intro prep cook
  refine ⟨?_, ?_, ?_, ?_⟩
  · intro h0
    simp only [formatTime]
    rw [if_pos h0]
  · intro h1 h2
    simp only [formatTime]
    rw [if_neg (by omega), if_pos h2]
  · intro h1 h2
    simp only [formatTime]
    rw [if_neg (by omega), if_neg (by omega), if_pos h2]
  · intro h1 h2
    simp only [formatTime]
    rw [if_neg (by omega), if_neg (by omega), if_neg (by omega)]

/-- Witness for C7 in the over-an-hour branch at `prep = 40`,
`cook = 35`. -/
theorem claim_C7_witness : formatTime (some 40) (some 35) = "1h 15m" := by
  have h := (claim_C7.1 (some 40) (some 35)).2.2.1 (by decide) (by decide)
  rw [h]
  decide

/-- Counterexample to claim C8 as stated: at the non-empty unmapped code
`"toString"` the source's `difficultyLabel[value] ?? value` finds the
inherited `Object.prototype.toString` member through the prototype
chain; that member is not nullish, so `??` never fires and the function
returns the inherited member, not the string unchanged. -/
theorem claim_C8_counterexample :
    getDifficultyLabel (some "toString") = JsValue.protoMember "toString" ∧
    getDifficultyLabel (some "toString") ≠ JsValue.stringValue "toString" :=
  ⟨by decide, by decide⟩

/-- Claim C8 (amended): `getDifficultyLabel` returns null for an absent
or empty code; maps `easy`, `weeknight` and `showstopper` to their
labels; passes every other non-empty code through unchanged unless it is
a property name inherited from `Object.prototype`; and for those
inherited names returns the inherited non-string member instead of the
code. -/
theorem claim_C8_amended :
    getDifficultyLabel none = JsValue.nullish ∧
    getDifficultyLabel (some "") = JsValue.nullish ∧
    getDifficultyLabel (some "easy") = JsValue.stringValue "Easy" ∧
    getDifficultyLabel (some "weeknight") = JsValue.stringValue "Weeknight-friendly" ∧
    getDifficultyLabel (some "showstopper") = JsValue.stringValue "Showstopper" ∧
    (∀ v : String, v ≠ "" → v ≠ "easy" → v ≠ "weeknight" → v ≠ "showstopper" →
      v ∉ objectProtoKeys → getDifficultyLabel (some v) = JsValue.stringValue v) ∧
    (∀ v ∈ objectProtoKeys, getDifficultyLabel (some v) = JsValue.protoMember v) := by
  refine ⟨rfl, by decide, by decide, by decide, by decide, ?_, ?_⟩
  · intro v h0 h1 h2 h3 h4
    simp [getDifficultyLabel, difficultyLabelGet, difficultyLabelMap, h0, h1, h2, h3, h4]
  · intro v hv
    simp only [objectProtoKeys] at hv
    fin_cases hv <;> decide

/-- Witness for C8 (amended) at the unmapped code `"custom"` and the
inherited property name `"hasOwnProperty"`. -/
theorem claim_C8_witness :
    getDifficultyLabel (some "custom") = JsValue.stringValue "custom" ∧
    getDifficultyLabel (some "hasOwnProperty") = JsValue.protoMember "hasOwnProperty" :=
  ⟨claim_C8_amended.2.2.2.2.2.1 "custom" (by decide) (by decide) (by decide) (by decide)
      (by decide),
    claim_C8_amended.2.2.2.2.2.2 "hasOwnProperty" (by decide)⟩

/-- Claim C9: when the trimmed input contains two consecutive spaces,
`parseQuantity` returns null (splitting on single spaces produces an
empty token, which is rejected), and `formatScaledQuantity` at any scale
other than 1 falls back to the annotated original text. -/
theorem claim_C9 (raw : String) (s : ℚ)
    (h : hasDoubleSpace (jsTrimL raw.data) = true) :
    parseQuantity raw = none ∧
    (s ≠ 1 → formatScaledQuantity (some raw) s = raw ++ " (x" ++ jsNumToString s ++ ")") := by
  have hnone := parseQuantity_none_of_double_space h
  refine ⟨hnone, fun hs => ?_⟩
  have hraw : raw ≠ "" := by
    intro he
    rw [he] at h
    exact absurd h (by decide)
  simp only [formatScaledQuantity]
  rw [if_neg (fun hor => hor.elim hraw hs), hnone]

unseal Rat.mul Rat.add Rat.inv Rat.sub in
/-- Witness for C9 at `raw = "1  1/2"` (double space), `s = 2`. -/
theorem claim_C9_witness :
    hasDoubleSpace (jsTrimL ("1  1/2" : String).data) = true ∧
    parseQuantity "1  1/2" = none ∧
    formatScaledQuantity (some "1  1/2") 2 = "1  1/2 (x2)" := by
  have h := claim_C9 "1  1/2" 2 (by decide)
  refine ⟨by decide, h.1, ?_⟩
  rw [h.2 (by decide)]
  decide

unseal Rat.mul Rat.add Rat.inv Rat.sub in
/-- Claim C10: in a fraction token an empty numerator substring converts
to the number 0 while an empty denominator substring fails the nonzero
check: `parseQuantity "/2" = 0`, `parseQuantity "2/" = null`, and
`formatScaledQuantity "/2" 2 = "0"`. -/
theorem claim_C10 :
    parseQuantity "/2" = some 0 ∧
    parseQuantity "2/" = none ∧
    formatScaledQuantity (some "/2") 2 = "0" := by
  refine ⟨by decide, by decide, by decide⟩
